import Mathlib

/-!
Shallow embedding of the hft-simulator core (src/order_book.rs,
src/matching_engine.rs, src/risk_management.rs).

Modelling conventions:
* `f64` prices/quantities and `rust_decimal::Decimal` values are both
  embedded as `ℚ` (exact rationals).  Every arithmetic step the claims
  exercise (additions, subtractions, minima, comparisons, and the concrete
  divisions below, which are exact) is represented faithfully by `ℚ`.
* `BTreeMap` ladders are embedded as association lists kept in the map's
  iteration order: ask ladders ascending by price, bid ladders descending
  by price (the Rust bid ladder is keyed by `Reverse(price)`, so ascending
  key order is descending price order).  `first_key_value` is the head of
  the list and `last_key_value` is the last element.
* `DashMap`s are embedded as association lists with unique keys; `insert`
  replaces in place when the key is present and appends otherwise,
  `get_mut` mutates in place, `remove` deletes the entry.
* The engine's `risk_manager.update_position` call has no definition
  anywhere in the repository and does not touch the book, so the engine
  embedding models only the book-state effects of message processing.
-/

namespace HftSim

inductive OrderType where
  | Market : OrderType
  | Limit : OrderType
deriving DecidableEq, Repr

inductive OrderSide where
  | Buy : OrderSide
  | Sell : OrderSide
deriving DecidableEq, Repr

/-- Structure `Order` from src/order_book.rs (f64 fields embedded as `ℚ`). -/
structure Order where
  id : Nat
  symbol : String
  price : ℚ
  quantity : ℚ
  order_type : OrderType
  side : OrderSide
  timestamp : Int
deriving DecidableEq, Repr

/-- Association-list lookup (model of `DashMap::get` / `BTreeMap::get`). -/
def alLookup {α β : Type} [DecidableEq α] : List (α × β) → α → Option β
  | [], _ => none
  | (k, v) :: rest, key => if k = key then some v else alLookup rest key

/-- Association-list insert: replace in place when the key is present,
append otherwise (model of `DashMap::insert`). -/
def alInsert {α β : Type} [DecidableEq α] : List (α × β) → α → β → List (α × β)
  | [], key, val => [(key, val)]
  | (k, v) :: rest, key, val =>
    if k = key then (key, val) :: rest else (k, v) :: alInsert rest key val

/-- Association-list in-place update: change the value when the key is
present, do nothing otherwise (model of mutation through `get_mut`). -/
def alSet {α β : Type} [DecidableEq α] : List (α × β) → α → β → List (α × β)
  | [], _, _ => []
  | (k, v) :: rest, key, val =>
    if k = key then (key, val) :: rest else (k, v) :: alSet rest key val

/-- Association-list removal (model of `DashMap::remove`). -/
def alRemove {α β : Type} [DecidableEq α] : List (α × β) → α → List (α × β)
  | [], _ => []
  | (k, v) :: rest, key => if k = key then rest else (k, v) :: alRemove rest key

/-- A price ladder: price levels in iteration order, each level a FIFO
sequence of resting orders. -/
def Ladder : Type := List (ℚ × List Order)

/-- Level lookup by exact price key (model of `BTreeMap::entry` lookup). -/
def levelLookup : List (ℚ × List Order) → ℚ → Option (List Order)
  | [], _ => none
  | (q, os) :: rest, p => if p = q then some os else levelLookup rest p

/-- Insert into a descending-ordered ladder (bids: keyed by `Reverse(price)`
in the source, so iteration order is highest price first);
`entry(k).or_insert_with(Vec::new).push(order)`. -/
def ladderInsertDesc : List (ℚ × List Order) → ℚ → Order → List (ℚ × List Order)
  | [], p, o => [(p, [o])]
  | (q, os) :: rest, p, o =>
    if p = q then (q, os ++ [o]) :: rest
    else if q < p then (p, [o]) :: (q, os) :: rest
    else (q, os) :: ladderInsertDesc rest p o

/-- Insert into an ascending-ordered ladder (asks). -/
def ladderInsertAsc : List (ℚ × List Order) → ℚ → Order → List (ℚ × List Order)
  | [], p, o => [(p, [o])]
  | (q, os) :: rest, p, o =>
    if p = q then (q, os ++ [o]) :: rest
    else if p < q then (p, [o]) :: (q, os) :: rest
    else (q, os) :: ladderInsertAsc rest p o

/-- The level-removal part of `cancel_order`: find the level with key `p`,
retain orders whose id differs, report whether one was removed, and drop
the level if it became empty (src/order_book.rs lines 128-160). -/
def ladderCancel : List (ℚ × List Order) → ℚ → Nat → Bool × List (ℚ × List Order)
  | [], _, _ => (false, [])
  | (q, os) :: rest, p, order_id =>
    if p = q then
      let kept := os.filter (fun o => o.id ≠ order_id)
      let cancelled := kept.length != os.length
      (cancelled, if kept.isEmpty then rest else (q, kept) :: rest)
    else
      let res := ladderCancel rest p order_id
      (res.1, (q, os) :: res.2)

/-- Structure `OrderBook` from src/order_book.rs. -/
structure OrderBook where
  bids : List (String × List (ℚ × List Order))
  asks : List (String × List (ℚ × List Order))
  order_index : List (Nat × (String × ℚ × OrderSide))
deriving DecidableEq, Repr

def OrderBook.new : OrderBook := ⟨[], [], []⟩

/-- Operation `OrderBook::add_order` (src/order_book.rs lines 49-111). -/
def add_order (b : OrderBook) (o : Order) : OrderBook :=
  if o.order_type ≠ OrderType.Limit then b
  else if o.price ≤ 0 ∨ o.quantity ≤ 0 then b
  else
    let idx := alInsert b.order_index o.id (o.symbol, o.price, o.side)
    match o.side with
    | OrderSide.Buy =>
      let L := (alLookup b.bids o.symbol).getD []
      { b with order_index := idx,
               bids := alInsert b.bids o.symbol (ladderInsertDesc L o.price o) }
    | OrderSide.Sell =>
      let L := (alLookup b.asks o.symbol).getD []
      { b with order_index := idx,
               asks := alInsert b.asks o.symbol (ladderInsertAsc L o.price o) }

/-- Operation `OrderBook::cancel_order` (src/order_book.rs lines 113-212): the index
entry is removed as soon as it is found, before the ladder is searched. -/
def cancel_order (b : OrderBook) (order_id : Nat) : Bool × OrderBook :=
  match alLookup b.order_index order_id with
  | none => (false, b)
  | some (sym, price, side) =>
    let idx := alRemove b.order_index order_id
    match side with
    | OrderSide.Buy =>
      match alLookup b.bids sym with
      | none => (false, { b with order_index := idx })
      | some L =>
        let res := ladderCancel L price order_id
        (res.1, { b with order_index := idx, bids := alSet b.bids sym res.2 })
    | OrderSide.Sell =>
      match alLookup b.asks sym with
      | none => (false, { b with order_index := idx })
      | some L =>
        let res := ladderCancel L price order_id
        (res.1, { b with order_index := idx, asks := alSet b.asks sym res.2 })

/-- Operation `OrderBook::get_best_bid` (src/order_book.rs lines 214-220):
`last_key_value` of the `Reverse`-keyed bid ladder, i.e. the LAST level in
iteration order (iteration is descending in price). -/
def get_best_bid (b : OrderBook) (symbol : String) : Option ℚ :=
  (alLookup b.bids symbol).bind (fun L => L.getLast?.map (fun lv => lv.1))

/-- Operation `OrderBook::get_best_ask` (src/order_book.rs lines 222-228):
`first_key_value` of the ascending ask ladder. -/
def get_best_ask (b : OrderBook) (symbol : String) : Option ℚ :=
  (alLookup b.asks symbol).bind (fun L => L.head?.map (fun lv => lv.1))

/-- The per-level FIFO walk of the matching loops (src/matching_engine.rs
lines 111-136, 173-197, 245-269, 298-322): match the incoming remainder
against resting orders in order, removing orders whose remaining quantity
falls to or below zero, and stop once the incoming remainder is
exhausted. -/
def matchQueue : ℚ → List Order → ℚ × List Order
  | r, [] => (r, [])
  | r, o :: rest =>
    let mq := min r o.quantity
    let r1 := r - mq
    let keep : List Order :=
      if o.quantity - mq ≤ 0 then [] else [{ o with quantity := o.quantity - mq }]
    if r1 ≤ 0 then (r1, keep ++ rest)
    else
      let res := matchQueue r1 rest
      (res.1, keep ++ res.2)

/-- The level loop of the matching routines: walk price levels in
iteration order while `gate` accepts the level price (always true for
market orders), drop emptied levels, and stop once the incoming remainder
is exhausted (src/matching_engine.rs lines 99-152 and symmetric blocks). -/
def matchLevels (gate : ℚ → Bool) : ℚ → List (ℚ × List Order) → ℚ × List (ℚ × List Order)
  | r, [] => (r, [])
  | r, (p, os) :: rest =>
    if gate p then
      let res := matchQueue r os
      let keep : List (ℚ × List Order) := if res.2.isEmpty then [] else [(p, res.2)]
      if res.1 ≤ 0 then (res.1, keep ++ rest)
      else
        let res2 := matchLevels gate res.1 rest
        (res2.1, keep ++ res2.2)
    else (r, (p, os) :: rest)

/-- Operation `MatchingEngine::process_limit_order` (src/matching_engine.rs lines
85-225), restricted to its effect on the book.  `remaining_qty` is passed
by value; the matching phase updates the opposite ladder in place, and any
positive local remainder is added to the book. -/
def process_limit_order (b : OrderBook) (o : Order) (remaining_qty : ℚ)
    (is_bid : Bool) : OrderBook :=
  let matched : ℚ × OrderBook :=
    if is_bid then
      match alLookup b.asks o.symbol with
      | none => (remaining_qty, b)
      | some L =>
        let res := matchLevels (fun p => p ≤ o.price) remaining_qty L
        (res.1, { b with asks := alSet b.asks o.symbol res.2 })
    else
      match alLookup b.bids o.symbol with
      | none => (remaining_qty, b)
      | some L =>
        let res := matchLevels (fun p => o.price ≤ p) remaining_qty L
        (res.1, { b with bids := alSet b.bids o.symbol res.2 })
  if 0 < matched.1 then add_order matched.2 { o with quantity := matched.1 }
  else matched.2

/-- Operation `MatchingEngine::process_market_order` (src/matching_engine.rs lines
227-350), restricted to its effect on the book: match with no price gate
and never insert the remainder. -/
def process_market_order (b : OrderBook) (o : Order) (remaining_qty : ℚ)
    (is_bid : Bool) : OrderBook :=
  if is_bid then
    match alLookup b.asks o.symbol with
    | none => b
    | some L =>
      let res := matchLevels (fun _ => true) remaining_qty L
      { b with asks := alSet b.asks o.symbol res.2 }
  else
    match alLookup b.bids o.symbol with
    | none => b
    | some L =>
      let res := matchLevels (fun _ => true) remaining_qty L
      { b with bids := alSet b.bids o.symbol res.2 }

/-- Operation `MatchingEngine::process_order` (src/matching_engine.rs lines 48-83).
The local `remaining_qty` is a by-value copy of `order.quantity` (`f64` is
`Copy`), so the callee's updates never reach this function: the final
`if remaining_qty > 0.0` block sees the original quantity and calls
`add_order` with the whole order again. -/
def process_order (b : OrderBook) (o : Order) : OrderBook :=
  let remaining_qty := o.quantity
  let is_bid := o.side = OrderSide.Buy
  let b1 :=
    match o.order_type with
    | OrderType.Limit =>
      if 0 < o.price then process_limit_order b o remaining_qty is_bid else b
    | OrderType.Market => process_market_order b o remaining_qty is_bid
  if 0 < remaining_qty then add_order b1 { o with quantity := remaining_qty }
  else b1

/-- Structure `RiskManager` from src/risk_management.rs (Decimal embedded as `ℚ`,
`DashMap`s as association lists). -/
structure RiskManager where
  max_order_size : ℚ
  position_limits : List (String × ℚ)
  current_positions : List (String × ℚ)
  realized_pnl : List (String × ℚ)
  avg_entry_prices : List (String × ℚ)
deriving DecidableEq, Repr

def RiskManager.new (max_order_size : ℚ) : RiskManager :=
  ⟨max_order_size, [], [], [], []⟩

/-- Operation `RiskManager::validate_order` (src/risk_management.rs lines 190-219). -/
def validate_order (rm : RiskManager) (o : Order) : Bool :=
  if rm.max_order_size < o.quantity then false
  else
    let delta := if o.side = OrderSide.Buy then o.quantity else -o.quantity
    let current := (alLookup rm.current_positions o.symbol).getD 0
    let new_position := current + delta
    match alLookup rm.position_limits o.symbol with
    | some limit => if limit < |new_position| then false else true
    | none => true

/-- Operation `RiskManager::record_transaction` (src/risk_management.rs lines
221-264).  The position is updated first, so the `and_modify` closure on
`avg_entry_prices` reads the POST-transaction position; the `realized_pnl`
entry is only created with `or_insert_with(ZERO)`, never incremented. -/
def record_transaction (rm : RiskManager) (symbol : String) (price : ℚ)
    (quantity : ℚ) (side : OrderSide) : RiskManager :=
  if quantity ≤ 0 then rm
  else
    let signed_quantity := if side = OrderSide.Buy then quantity else -quantity
    let old_position := (alLookup rm.current_positions symbol).getD 0
    let new_position := old_position + signed_quantity
    let positions := alInsert rm.current_positions symbol new_position
    let avgs :=
      match alLookup rm.avg_entry_prices symbol with
      | some avg_price =>
        alSet rm.avg_entry_prices symbol
          (if new_position ≠ 0 then
            (avg_price * |new_position| + price * |quantity|) / |new_position|
          else avg_price)
      | none => alInsert rm.avg_entry_prices symbol price
    let pnl :=
      match alLookup rm.realized_pnl symbol with
      | some _ => rm.realized_pnl
      | none => alInsert rm.realized_pnl symbol 0
    { rm with current_positions := positions, avg_entry_prices := avgs,
              realized_pnl := pnl }

/-- Ids of the orders in a FIFO level. -/
def orderIds (os : List Order) : List Nat := os.map (fun o => o.id)

/-- Ids of all orders resting in a ladder. -/
def ladderIds : List (ℚ × List Order) → List Nat
  | [] => []
  | lv :: rest => orderIds lv.2 ++ ladderIds rest

/-- Ids of all orders resting on one side of the book. -/
def sideIds : List (String × List (ℚ × List Order)) → List Nat
  | [] => []
  | e :: rest => ladderIds e.2 ++ sideIds rest

/-- Ids of all orders resting anywhere in the book's ladders. -/
def restingIds (b : OrderBook) : List Nat := sideIds b.bids ++ sideIds b.asks

/-- Ids present in the `OrderIndex`. -/
def indexIds (b : OrderBook) : List Nat := b.order_index.map (fun e => e.1)

/-- The side ladder (if any) that `add_order` would touch for `o`. -/
def sideLadder (b : OrderBook) (o : Order) : Option (List (ℚ × List Order)) :=
  match o.side with
  | OrderSide.Buy => alLookup b.bids o.symbol
  | OrderSide.Sell => alLookup b.asks o.symbol

/-- Whether an order with id `i` rests at the level recorded for it. -/
def restingAt (b : OrderBook) (sym : String) (p : ℚ) (side : OrderSide)
    (i : Nat) : Bool :=
  let m := match side with
    | OrderSide.Buy => b.bids
    | OrderSide.Sell => b.asks
  match alLookup m sym with
  | none => false
  | some L =>
    match levelLookup L p with
    | none => false
    | some os => os.any (fun o => o.id == i)

/-- Bool-level view of `restingAt` on a single ladder. -/
def restingAtLadder (L : List (ℚ × List Order)) (p : ℚ) (i : Nat) : Bool :=
  match levelLookup L p with
  | none => false
  | some os => os.any (fun o => o.id == i)

theorem ladderCancel_fst_false (L : List (ℚ × List Order)) (p : ℚ) (i : Nat)
    (h : restingAtLadder L p i = false) : (ladderCancel L p i).1 = false := by
  induction L with
  | nil => rfl
  | cons lv rest ih =>
    obtain ⟨q, os⟩ := lv
    by_cases hpq : p = q
    · simp only [restingAtLadder, levelLookup, if_pos hpq] at h
      simp only [ladderCancel, if_pos hpq]
      have hfilter : os.filter (fun o => o.id ≠ i) = os := by
        apply List.filter_eq_self.mpr
        intro a ha
        have := List.any_eq_false.mp h a ha
        simpa using this
      simp [hfilter]
      intro a ha
      simpa using List.any_eq_false.mp h a ha
    · simp only [restingAtLadder, levelLookup, if_neg hpq] at h
      simp only [ladderCancel, if_neg hpq]
      exact ih h

/-- C10: when the OrderIndex records id `i` at `(sym, p, side)` but no
order with id `i` actually rests at that level, `cancel_order i` returns
`false` and yet removes the OrderIndex entry for `i`, so a false return
does not imply the book state is unchanged. -/
theorem c10_dangling_cancel_false_removes_index (b : OrderBook) (i : Nat)
    (sym : String) (p : ℚ) (side : OrderSide)
    (hidx : alLookup b.order_index i = some (sym, p, side))
    (hrest : restingAt b sym p side i = false) :
    (cancel_order b i).1 = false ∧
    (cancel_order b i).2.order_index = alRemove b.order_index i := by
  unfold cancel_order
  rw [hidx]
  cases side with
  | Buy =>
    simp only [restingAt] at hrest
    cases hm : alLookup b.bids sym with
    | none => simp [hm]
    | some L =>
      rw [hm] at hrest
      simp only [hm]
      exact ⟨ladderCancel_fst_false L p i hrest, by trivial⟩
  | Sell =>
    simp only [restingAt] at hrest
    cases hm : alLookup b.asks sym with
    | none => simp [hm]
    | some L =>
      rw [hm] at hrest
      simp only [hm]
      exact ⟨ladderCancel_fst_false L p i hrest, by trivial⟩

/-- Witness for C10: an index entry for id 1 with no resting order. -/
theorem c10_dangling_cancel_false_removes_index_witness :
    alLookup (OrderBook.mk [] [] [(1, ("A", 100, OrderSide.Buy))]).order_index 1
        = some ("A", 100, OrderSide.Buy) ∧
    (cancel_order (OrderBook.mk [] [] [(1, ("A", 100, OrderSide.Buy))]) 1).1
        = false ∧
    (cancel_order (OrderBook.mk [] [] [(1, ("A", 100, OrderSide.Buy))]) 1).2.order_index
        = alRemove (OrderBook.mk [] [] [(1, ("A", 100, OrderSide.Buy))]).order_index 1 := by
  refine ⟨by with_unfolding_all decide, ?_, ?_⟩
  · exact (c10_dangling_cancel_false_removes_index _ 1 "A" 100 OrderSide.Buy
      (by with_unfolding_all decide) (by with_unfolding_all decide)).1
  · exact (c10_dangling_cancel_false_removes_index _ 1 "A" 100 OrderSide.Buy
      (by with_unfolding_all decide) (by with_unfolding_all decide)).2

theorem add_order_not_limit (b : OrderBook) (o : Order)
    (h : o.order_type ≠ OrderType.Limit) : add_order b o = b := by
  unfold add_order
  rw [if_pos h]

theorem add_order_invalid (b : OrderBook) (o : Order)
    (h : o.price ≤ 0 ∨ o.quantity ≤ 0) : add_order b o = b := by
  unfold add_order
  by_cases ht : o.order_type ≠ OrderType.Limit
  · rw [if_pos ht]
  · rw [if_neg ht, if_pos h]

/-- C8: for every order whose type is not Limit, or whose price or
quantity is non-positive, `add_order` leaves the bid ladder, the ask
ladder and the OrderIndex completely unchanged. -/
theorem c8_malformed_add_order_no_state_change (b : OrderBook) (o : Order)
    (h : o.order_type ≠ OrderType.Limit ∨ o.price ≤ 0 ∨ o.quantity ≤ 0) :
    add_order b o = b := by
  rcases h with h | h | h
  · exact add_order_not_limit b o h
  · exact add_order_invalid b o (Or.inl h)
  · exact add_order_invalid b o (Or.inr h)

/-- Witness for C8 at a concrete Market order against a concrete book. -/
theorem c8_malformed_add_order_no_state_change_witness :
    (⟨3, "A", 100, 5, OrderType.Market, OrderSide.Buy, 0⟩ : Order).order_type
        ≠ OrderType.Limit ∧
    add_order OrderBook.new ⟨3, "A", 100, 5, OrderType.Market, OrderSide.Buy, 0⟩
        = OrderBook.new :=
  ⟨by decide,
   c8_malformed_add_order_no_state_change OrderBook.new
     ⟨3, "A", 100, 5, OrderType.Market, OrderSide.Buy, 0⟩ (Or.inl (by decide))⟩

/-- C1: the spec's reduction/close/reversal realized-P&L rule fails on the
code: `record_transaction` only ever creates the realized-P&L entry at
zero and never increments it, so the scenario Buy 10 @ 100, Sell 15 @ 110,
Buy 5 @ 105 from flat ends with realized P&L 0, not the claimed 125 (the
position itself does end at 0). -/
theorem c1_realized_pnl_never_incremented :
    alLookup (record_transaction (record_transaction (record_transaction
        (RiskManager.new 1000) "A" 100 10 OrderSide.Buy)
        "A" 110 15 OrderSide.Sell)
        "A" 105 5 OrderSide.Buy).realized_pnl "A" = some 0 ∧
    alLookup (record_transaction (record_transaction (record_transaction
        (RiskManager.new 1000) "A" 100 10 OrderSide.Buy)
        "A" 110 15 OrderSide.Sell)
        "A" 105 5 OrderSide.Buy).current_positions "A" = some 0 ∧
    (0 : ℚ) ≠ 125 := by
  refine ⟨?_, ?_, ?_⟩ <;> with_unfolding_all decide

/-- C4: the weighted-average rule fails on the code: after Buy 10 @ 100
from flat, a further Buy 10 @ 110 should give average entry price
(100·10 + 110·10)/20 = 105, but `record_transaction` multiplies the old
average by the NEW absolute position and divides by it again, yielding
(100·20 + 110·10)/20 = 155. -/
theorem c4_avg_entry_price_formula_diverges :
    alLookup (record_transaction (record_transaction
        (RiskManager.new 1000) "A" 100 10 OrderSide.Buy)
        "A" 110 10 OrderSide.Buy).avg_entry_prices "A" = some 155 ∧
    (155 : ℚ) ≠ 105 := by
  refine ⟨?_, ?_⟩ <;> with_unfolding_all decide

/-- C3: `get_best_bid` takes `last_key_value` of the `Reverse`-keyed bid
ladder, which is the LOWEST resting bid price: with resting buys at 100
and 99 it returns `some 99` although the maximum resting buy price is
100.  (`get_best_ask` is the correct `first_key_value` of the ascending
ask ladder.) -/
theorem c3_get_best_bid_returns_lowest :
    alLookup (add_order (add_order OrderBook.new
        ⟨1, "A", 100, 5, OrderType.Limit, OrderSide.Buy, 0⟩)
        ⟨2, "A", 99, 5, OrderType.Limit, OrderSide.Buy, 0⟩).bids "A"
      = some [(100, [⟨1, "A", 100, 5, OrderType.Limit, OrderSide.Buy, 0⟩]),
              (99, [⟨2, "A", 99, 5, OrderType.Limit, OrderSide.Buy, 0⟩])] ∧
    get_best_bid (add_order (add_order OrderBook.new
        ⟨1, "A", 100, 5, OrderType.Limit, OrderSide.Buy, 0⟩)
        ⟨2, "A", 99, 5, OrderType.Limit, OrderSide.Buy, 0⟩) "A" = some 99 ∧
    (99 : ℚ) < 100 := by
  refine ⟨?_, ?_, ?_⟩ <;> with_unfolding_all decide

/-- C2: `process_order` copies `order.quantity` into a by-value local that
the matching routines can never update, so after matching it re-adds the
whole original limit order to the book.  Against a resting ask
(id 1, 100, qty 10), a limit Buy (id 2, 105, qty 5) fully fills, yet the
book ends with best bid 105 above best ask 100 — a crossed book, and the
fully filled incoming order has been inserted. -/
theorem c2_crossed_book_after_process_order :
    get_best_bid (process_order (add_order OrderBook.new
        ⟨1, "A", 100, 10, OrderType.Limit, OrderSide.Sell, 0⟩)
        ⟨2, "A", 105, 5, OrderType.Limit, OrderSide.Buy, 0⟩) "A" = some 105 ∧
    get_best_ask (process_order (add_order OrderBook.new
        ⟨1, "A", 100, 10, OrderType.Limit, OrderSide.Sell, 0⟩)
        ⟨2, "A", 105, 5, OrderType.Limit, OrderSide.Buy, 0⟩) "A" = some 100 ∧
    (100 : ℚ) < 105 := by
  refine ⟨?_, ?_, ?_⟩ <;> with_unfolding_all decide

/-- C6 counterexample: on the empty book, adding a valid limit order for a
fresh symbol and cancelling it does NOT restore the original state: the
cancel leaves behind an empty per-symbol ladder map that the add created,
so the round trip is not the identity as claimed. -/
theorem c6_add_cancel_roundtrip_counterexample :
    (cancel_order (add_order OrderBook.new
        ⟨1, "A", 100, 5, OrderType.Limit, OrderSide.Buy, 0⟩) 1).2
      ≠ OrderBook.new ∧
    (cancel_order (add_order OrderBook.new
        ⟨1, "A", 100, 5, OrderType.Limit, OrderSide.Buy, 0⟩) 1).2.bids
      = [("A", [])] := by
  refine ⟨?_, ?_⟩ <;> with_unfolding_all decide

theorem orderIds_append (a b : List Order) :
    orderIds (a ++ b) = orderIds a ++ orderIds b := List.map_append _ a b

theorem ladderIds_append (a b : List (ℚ × List Order)) :
    ladderIds (a ++ b) = ladderIds a ++ ladderIds b := by
  induction a with
  | nil => rfl
  | cons lv rest ih => simp [ladderIds, ih]

theorem matchQueue_ids_subset (r : ℚ) (os : List Order) :
    orderIds (matchQueue r os).2 ⊆ orderIds os := by
  induction os generalizing r with
  | nil => simp [matchQueue]
  | cons o rest ih =>
    have hkeep : orderIds (if o.quantity - min r o.quantity ≤ 0 then ([] : List Order)
        else [{ o with quantity := o.quantity - min r o.quantity }]) ⊆ [o.id] := by
      split <;> simp [orderIds]
    simp only [matchQueue]
    split
    · intro x hx
      rw [orderIds_append] at hx
      rcases List.mem_append.mp hx with hx | hx
      · have hx1 := hkeep hx
        simp only [List.mem_singleton] at hx1
        simp [orderIds, hx1]
      · simp only [orderIds, List.map_cons, List.mem_cons]
        exact Or.inr hx
    · intro x hx
      rw [orderIds_append] at hx
      rcases List.mem_append.mp hx with hx | hx
      · have hx1 := hkeep hx
        simp only [List.mem_singleton] at hx1
        simp [orderIds, hx1]
      · simp only [orderIds, List.map_cons, List.mem_cons]
        exact Or.inr (ih _ hx)

theorem matchLevels_ids_subset (g : ℚ → Bool) (r : ℚ) (L : List (ℚ × List Order)) :
    ladderIds (matchLevels g r L).2 ⊆ ladderIds L := by
  induction L generalizing r with
  | nil => simp [matchLevels]
  | cons lv rest ih =>
    obtain ⟨p, os⟩ := lv
    have hkeep : ladderIds (if (matchQueue r os).2.isEmpty
        then ([] : List (ℚ × List Order)) else [(p, (matchQueue r os).2)])
        ⊆ orderIds os := by
      split
      · simp [ladderIds]
      · intro x hx
        simp only [ladderIds, List.append_nil] at hx
        exact matchQueue_ids_subset r os hx
    simp only [matchLevels]
    split
    · split
      · intro x hx
        rw [ladderIds_append] at hx
        rcases List.mem_append.mp hx with hx | hx
        · exact List.mem_append.mpr (Or.inl (hkeep hx))
        · exact List.mem_append.mpr (Or.inr hx)
      · intro x hx
        rw [ladderIds_append] at hx
        rcases List.mem_append.mp hx with hx | hx
        · exact List.mem_append.mpr (Or.inl (hkeep hx))
        · exact List.mem_append.mpr (Or.inr (ih _ hx))
    · exact fun x hx => hx

theorem mem_sideIds_alSet {i : Nat} (m : List (String × List (ℚ × List Order)))
    (k : String) (v : List (ℚ × List Order))
    (h : i ∈ sideIds (alSet m k v)) : i ∈ sideIds m ∨ i ∈ ladderIds v := by
  induction m with
  | nil => simp [alSet, sideIds] at h
  | cons e rest ih =>
    obtain ⟨k1, v1⟩ := e
    simp only [alSet] at h
    by_cases hk : k1 = k
    · rw [if_pos hk] at h
      simp only [sideIds] at h
      rcases List.mem_append.mp h with h | h
      · exact Or.inr h
      · exact Or.inl (List.mem_append.mpr (Or.inr h))
    · rw [if_neg hk] at h
      simp only [sideIds] at h ⊢
      rcases List.mem_append.mp h with h | h
      · exact Or.inl (List.mem_append.mpr (Or.inl h))
      · rcases ih h with h | h
        · exact Or.inl (List.mem_append.mpr (Or.inr h))
        · exact Or.inr h

theorem mem_sideIds_of_lookup {i : Nat} (m : List (String × List (ℚ × List Order)))
    (k : String) (L : List (ℚ × List Order))
    (hl : alLookup m k = some L) (h : i ∈ ladderIds L) : i ∈ sideIds m := by
  induction m with
  | nil => simp [alLookup] at hl
  | cons e rest ih =>
    obtain ⟨k1, v1⟩ := e
    simp only [alLookup] at hl
    by_cases hk : k1 = k
    · rw [if_pos hk] at hl
      cases hl
      exact List.mem_append.mpr (Or.inl h)
    · rw [if_neg hk] at hl
      exact List.mem_append.mpr (Or.inr (ih hl))

theorem process_market_order_index (b : OrderBook) (o : Order) (r : ℚ)
    (ib : Bool) : (process_market_order b o r ib).order_index = b.order_index := by
  unfold process_market_order
  split
  · cases alLookup b.asks o.symbol <;> rfl
  · cases alLookup b.bids o.symbol <;> rfl

theorem process_market_order_resting {i : Nat} (b : OrderBook) (o : Order)
    (r : ℚ) (ib : Bool) (h : i ∉ restingIds b) :
    i ∉ restingIds (process_market_order b o r ib) := by
  intro hmem
  apply h
  unfold process_market_order at hmem
  rcases hib : ib with _ | _
  · rw [hib] at hmem
    simp only [Bool.false_eq_true, if_neg] at hmem
    cases hl : alLookup b.bids o.symbol with
    | none => rw [hl] at hmem; exact hmem
    | some L =>
      rw [hl] at hmem
      simp only [restingIds] at hmem ⊢
      rcases List.mem_append.mp hmem with hm | hm
      · rcases mem_sideIds_alSet _ _ _ hm with hm | hm
        · exact List.mem_append.mpr (Or.inl hm)
        · have := matchLevels_ids_subset (fun _ => true) r L hm
          exact List.mem_append.mpr
            (Or.inl (mem_sideIds_of_lookup _ _ _ hl this))
      · exact List.mem_append.mpr (Or.inr hm)
  · rw [hib] at hmem
    simp only [if_pos] at hmem
    cases hl : alLookup b.asks o.symbol with
    | none => rw [hl] at hmem; exact hmem
    | some L =>
      rw [hl] at hmem
      simp only [restingIds] at hmem ⊢
      rcases List.mem_append.mp hmem with hm | hm
      · exact List.mem_append.mpr (Or.inl hm)
      · rcases mem_sideIds_alSet _ _ _ hm with hm | hm
        · exact List.mem_append.mpr (Or.inr hm)
        · have := matchLevels_ids_subset (fun _ => true) r L hm
          exact List.mem_append.mpr
            (Or.inr (mem_sideIds_of_lookup _ _ _ hl this))

theorem process_order_market_eq (b : OrderBook) (o : Order)
    (h : o.order_type = OrderType.Market) :
    process_order b o
      = process_market_order b o o.quantity (o.side = OrderSide.Buy) := by
  unfold process_order
  rw [h]
  simp only
  split
  · exact add_order_not_limit _ _ (by simp [h])
  · rfl

/-- C7: processing a Market order never inserts it into the book: if its
id rests nowhere and is absent from the OrderIndex before `process_order`,
the same holds afterwards (the unfilled remainder is discarded, and the
trailing `add_order` call rejects the Market type). -/
theorem c7_market_orders_never_rest (b : OrderBook) (o : Order)
    (htype : o.order_type = OrderType.Market)
    (h1 : o.id ∉ restingIds b) (h2 : o.id ∉ indexIds b) :
    o.id ∉ restingIds (process_order b o) ∧ o.id ∉ indexIds (process_order b o) := by
  rw [process_order_market_eq b o htype]
  refine ⟨process_market_order_resting b o _ _ h1, ?_⟩
  intro hmem
  apply h2
  unfold indexIds at hmem ⊢
  rw [process_market_order_index] at hmem
  exact hmem

/-- Witness for C7: a market buy against a resting ask. -/
theorem c7_market_orders_never_rest_witness :
    (⟨2, "A", 0, 5, OrderType.Market, OrderSide.Buy, 0⟩ : Order).order_type
        = OrderType.Market ∧
    2 ∉ restingIds (OrderBook.mk []
        [("A", [(100, [⟨1, "A", 100, 10, OrderType.Limit, OrderSide.Sell, 0⟩])])]
        [(1, ("A", 100, OrderSide.Sell))]) ∧
    2 ∉ restingIds (process_order (OrderBook.mk []
        [("A", [(100, [⟨1, "A", 100, 10, OrderType.Limit, OrderSide.Sell, 0⟩])])]
        [(1, ("A", 100, OrderSide.Sell))])
        ⟨2, "A", 0, 5, OrderType.Market, OrderSide.Buy, 0⟩) ∧
    2 ∉ indexIds (process_order (OrderBook.mk []
        [("A", [(100, [⟨1, "A", 100, 10, OrderType.Limit, OrderSide.Sell, 0⟩])])]
        [(1, ("A", 100, OrderSide.Sell))])
        ⟨2, "A", 0, 5, OrderType.Market, OrderSide.Buy, 0⟩) := by
  refine ⟨by decide, by with_unfolding_all decide, ?_, ?_⟩
  · exact (c7_market_orders_never_rest _ _ (by decide)
      (by with_unfolding_all decide) (by with_unfolding_all decide)).1
  · exact (c7_market_orders_never_rest _ _ (by decide)
      (by with_unfolding_all decide) (by with_unfolding_all decide)).2

theorem alLookup_alInsert_self {α β : Type} [DecidableEq α]
    (l : List (α × β)) (k : α) (v : β) :
    alLookup (alInsert l k v) k = some v := by
  induction l with
  | nil => simp [alInsert, alLookup]
  | cons e rest ih =>
    obtain ⟨k1, v1⟩ := e
    by_cases hk : k1 = k
    · simp [alInsert, hk, alLookup]
    · simp [alInsert, hk, alLookup, ih]

theorem alRemove_alInsert_fresh {α β : Type} [DecidableEq α]
    (l : List (α × β)) (k : α) (v : β)
    (h : alLookup l k = none) : alRemove (alInsert l k v) k = l := by
  induction l with
  | nil => simp [alInsert, alRemove]
  | cons e rest ih =>
    obtain ⟨k1, v1⟩ := e
    simp only [alLookup] at h
    by_cases hk : k1 = k
    · rw [if_pos hk] at h
      exact Option.noConfusion h
    · rw [if_neg hk] at h
      simp [alInsert, hk, alRemove, ih h]

theorem alSet_alInsert_lookup {α β : Type} [DecidableEq α]
    (l : List (α × β)) (k : α) (v w : β)
    (h : alLookup l k = some w) : alSet (alInsert l k v) k w = l := by
  induction l with
  | nil => simp [alLookup] at h
  | cons e rest ih =>
    obtain ⟨k1, v1⟩ := e
    simp only [alLookup] at h
    by_cases hk : k1 = k
    · rw [if_pos hk] at h
      have hw := Option.some.inj h
      subst hw
      subst hk
      simp [alInsert, alSet]
    · rw [if_neg hk] at h
      simp [alInsert, hk, alSet, ih h]

theorem ladderCancel_insertDesc (L : List (ℚ × List Order)) (p : ℚ) (o : Order)
    (hid : o.id ∉ ladderIds L)
    (hlv : ∀ os, levelLookup L p = some os → os ≠ []) :
    ladderCancel (ladderInsertDesc L p o) p o.id = (true, L) := by
  induction L with
  | nil => simp [ladderInsertDesc, ladderCancel]
  | cons lv rest ih =>
    obtain ⟨q, os⟩ := lv
    have hid1 : o.id ∉ orderIds os :=
      fun hmem => hid (List.mem_append.mpr (Or.inl hmem))
    have hid2 : o.id ∉ ladderIds rest :=
      fun hmem => hid (List.mem_append.mpr (Or.inr hmem))
    by_cases hpq : p = q
    · have hos : os ≠ [] := hlv os (by simp [levelLookup, hpq])
      have hfilter : (os ++ [o]).filter (fun x => x.id ≠ o.id) = os := by
        rw [List.filter_append]
        have h1 : os.filter (fun x => x.id ≠ o.id) = os := by
          apply List.filter_eq_self.mpr
          intro a ha
          simp only [ne_eq, decide_not, Bool.not_eq_eq_eq_not, Bool.not_true,
            decide_eq_false_iff_not]
          intro hcontra
          exact hid1 (hcontra ▸ List.mem_map_of_mem (fun x => x.id) ha)
        have h2 : [o].filter (fun x => x.id ≠ o.id) = [] := by simp
        rw [h1, h2, List.append_nil]
      simp only [ladderInsertDesc, if_pos hpq, ladderCancel, hfilter]
      rw [Prod.mk.injEq]
      refine ⟨?_, ?_⟩
      · simp only [List.length_append, List.length_cons, List.length_nil]
        simp only [bne_iff_ne, ne_eq]
        omega
      · simp [List.isEmpty_iff, hos]
    · by_cases hlt : q < p
      · simp only [ladderInsertDesc, if_neg hpq, if_pos hlt]
        simp [ladderCancel, hpq]
      · simp only [ladderInsertDesc, if_neg hpq, if_neg hlt]
        have hlv2 : ∀ os2, levelLookup rest p = some os2 → os2 ≠ [] :=
          fun os2 h2 => hlv os2 (by simp [levelLookup, hpq, h2])
        simp [ladderCancel, hpq, ih hid2 hlv2]

theorem ladderCancel_insertAsc (L : List (ℚ × List Order)) (p : ℚ) (o : Order)
    (hid : o.id ∉ ladderIds L)
    (hlv : ∀ os, levelLookup L p = some os → os ≠ []) :
    ladderCancel (ladderInsertAsc L p o) p o.id = (true, L) := by
  induction L with
  | nil => simp [ladderInsertAsc, ladderCancel]
  | cons lv rest ih =>
    obtain ⟨q, os⟩ := lv
    have hid1 : o.id ∉ orderIds os :=
      fun hmem => hid (List.mem_append.mpr (Or.inl hmem))
    have hid2 : o.id ∉ ladderIds rest :=
      fun hmem => hid (List.mem_append.mpr (Or.inr hmem))
    by_cases hpq : p = q
    · have hos : os ≠ [] := hlv os (by simp [levelLookup, hpq])
      have hfilter : (os ++ [o]).filter (fun x => x.id ≠ o.id) = os := by
        rw [List.filter_append]
        have h1 : os.filter (fun x => x.id ≠ o.id) = os := by
          apply List.filter_eq_self.mpr
          intro a ha
          simp only [ne_eq, decide_not, Bool.not_eq_eq_eq_not, Bool.not_true,
            decide_eq_false_iff_not]
          intro hcontra
          exact hid1 (hcontra ▸ List.mem_map_of_mem (fun x => x.id) ha)
        have h2 : [o].filter (fun x => x.id ≠ o.id) = [] := by simp
        rw [h1, h2, List.append_nil]
      simp only [ladderInsertAsc, if_pos hpq, ladderCancel, hfilter]
      rw [Prod.mk.injEq]
      refine ⟨?_, ?_⟩
      · simp only [List.length_append, List.length_cons, List.length_nil]
        simp only [bne_iff_ne, ne_eq]
        omega
      · simp [List.isEmpty_iff, hos]
    · by_cases hlt : p < q
      · simp only [ladderInsertAsc, if_neg hpq, if_pos hlt]
        simp [ladderCancel, hpq]
      · simp only [ladderInsertAsc, if_neg hpq, if_neg hlt]
        have hlv2 : ∀ os2, levelLookup rest p = some os2 → os2 ≠ [] :=
          fun os2 h2 => hlv os2 (by simp [levelLookup, hpq, h2])
        simp [ladderCancel, hpq, ih hid2 hlv2]

/-- C6 (amended): for every book state in which order id `o.id` is not
present (neither in the OrderIndex nor resting in the ladder of
`o.symbol`'s side), in which the per-symbol ladder map for `o.symbol`
already exists on `o`'s side, and whose level at `o.price`, if present, is
nonempty, adding the valid limit order `o` and then cancelling `o.id`
returns `true` and restores the book exactly.  (When the per-symbol ladder
map does not yet exist the round trip instead leaves behind an empty
ladder map, as the counterexample shows.) -/
theorem c6_add_cancel_roundtrip_amended (b : OrderBook) (o : Order)
    (L : List (ℚ × List Order))
    (htype : o.order_type = OrderType.Limit)
    (hprice : 0 < o.price) (hqty : 0 < o.quantity)
    (hidx : alLookup b.order_index o.id = none)
    (hlad : sideLadder b o = some L)
    (hfresh : o.id ∉ ladderIds L)
    (hlv : ∀ os, levelLookup L o.price = some os → os ≠ []) :
    cancel_order (add_order b o) o.id = (true, b) := by
  have hc1 : ¬ o.order_type ≠ OrderType.Limit := by simp [htype]
  have hc2 : ¬ (o.price ≤ 0 ∨ o.quantity ≤ 0) := by
    push_neg
    exact ⟨hprice, hqty⟩
  cases hside : o.side with
  | Buy =>
    have hlad2 : alLookup b.bids o.symbol = some L := by
      unfold sideLadder at hlad
      rw [hside] at hlad
      exact hlad
    unfold add_order
    rw [if_neg hc1, if_neg hc2, hside]
    simp only [hlad2, Option.getD_some]
    unfold cancel_order
    simp only [alLookup_alInsert_self]
    rw [ladderCancel_insertDesc L o.price o hfresh hlv]
    rw [alRemove_alInsert_fresh _ _ _ hidx]
    rw [alSet_alInsert_lookup _ _ _ _ hlad2]
  | Sell =>
    have hlad2 : alLookup b.asks o.symbol = some L := by
      unfold sideLadder at hlad
      rw [hside] at hlad
      exact hlad
    unfold add_order
    rw [if_neg hc1, if_neg hc2, hside]
    simp only [hlad2, Option.getD_some]
    unfold cancel_order
    simp only [alLookup_alInsert_self]
    rw [ladderCancel_insertAsc L o.price o hfresh hlv]
    rw [alRemove_alInsert_fresh _ _ _ hidx]
    rw [alSet_alInsert_lookup _ _ _ _ hlad2]

/-- Concrete book for the C6 witness: symbol "A" already has a bid ladder. -/
def c6Book : OrderBook :=
  ⟨[("A", [(100, [⟨1, "A", 100, 5, OrderType.Limit, OrderSide.Buy, 0⟩])])], [],
   [(1, ("A", 100, OrderSide.Buy))]⟩

/-- Concrete fresh order for the C6 witness. -/
def c6Order : Order := ⟨2, "A", 101, 3, OrderType.Limit, OrderSide.Buy, 0⟩

/-- Witness for the amended C6 at a concrete book and order. -/
theorem c6_add_cancel_roundtrip_amended_witness :
    c6Order.order_type = OrderType.Limit ∧ (0 : ℚ) < c6Order.price ∧
    cancel_order (add_order c6Book c6Order) 2 = (true, c6Book) := by
  have hnone : levelLookup
      [((100 : ℚ), [(⟨1, "A", 100, 5, OrderType.Limit, OrderSide.Buy, 0⟩ : Order)])]
      c6Order.price = none := by with_unfolding_all rfl
  refine ⟨rfl, by with_unfolding_all decide, ?_⟩
  exact c6_add_cancel_roundtrip_amended c6Book c6Order
    [(100, [⟨1, "A", 100, 5, OrderType.Limit, OrderSide.Buy, 0⟩])]
    rfl (by with_unfolding_all decide) (by with_unfolding_all decide)
    (by with_unfolding_all decide) (by with_unfolding_all decide)
    (by with_unfolding_all decide)
    (fun os hlev => by
      rw [hnone] at hlev
      exact Option.noConfusion hlev)

/-- C5: `validate_order` returns false exactly when the order's quantity
exceeds `max_order_size`, or a position limit is set for the symbol and
the post-fill absolute position would exceed it; and the spec's concrete
scenario (max 1000, AAPL limit 100, current position +90: Buy 20 rejected,
Buy 10 accepted, Buy 1001 rejected) holds on the code. -/
theorem c5_validate_order_spec (rm : RiskManager) (o : Order) :
    (validate_order rm o = false ↔
      rm.max_order_size < o.quantity ∨
      ∃ limit, alLookup rm.position_limits o.symbol = some limit ∧
        limit < |(alLookup rm.current_positions o.symbol).getD 0 +
          (if o.side = OrderSide.Buy then o.quantity else -o.quantity)|) ∧
    validate_order ⟨1000, [("AAPL", 100)], [("AAPL", 90)], [], []⟩
      ⟨9, "AAPL", 1, 20, OrderType.Limit, OrderSide.Buy, 0⟩ = false ∧
    validate_order ⟨1000, [("AAPL", 100)], [("AAPL", 90)], [], []⟩
      ⟨9, "AAPL", 1, 10, OrderType.Limit, OrderSide.Buy, 0⟩ = true ∧
    validate_order ⟨1000, [("AAPL", 100)], [("AAPL", 90)], [], []⟩
      ⟨9, "AAPL", 1, 1001, OrderType.Limit, OrderSide.Buy, 0⟩ = false := by
  refine ⟨?_, by with_unfolding_all decide, by with_unfolding_all decide,
    by with_unfolding_all decide⟩
  unfold validate_order
  by_cases h1 : rm.max_order_size < o.quantity
  · simp [h1]
  · rw [if_neg h1]
    cases hl : alLookup rm.position_limits o.symbol with
    | none => simp [h1, hl]
    | some limit =>
      by_cases h2 : limit <
          |(alLookup rm.current_positions o.symbol).getD 0 +
            (if o.side = OrderSide.Buy then o.quantity else -o.quantity)| <;>
        simp [h1, hl, h2]

end HftSim
